import Mathlib

/-!
Shallow embedding of the study-aid generator (app.py): sentence splitting,
tokenization, term scoring, fill-in-the-blank and true/false question
generation, the quiz orchestrator, and the output formatter.

Strings are modelled as `List Char`.  The Python class `random.Random` is modelled by
explicit outcome parameters: a draw of `rnd.random() < 0.6` becomes a `Bool`,
`rnd.choice(nums)` becomes an index reduced modulo the list length, and
`rnd.randint(1,10)` becomes `1 + d % 10` for an arbitrary seed `d : Nat`.
Scores are modelled as exact rationals (the Python floats involved are dyadic
and are compared exactly at these magnitudes).
-/

/-- Latin letter class `[A-Za-z]` of WORD_PATTERN (codepoint ranges). -/
def isLatinC (c : Char) : Bool :=
  (65 ≤ c.toNat && c.toNat ≤ 90) || (97 ≤ c.toNat && c.toNat ≤ 122)

/-- Digit class `[0-9]` of WORD_PATTERN. -/
def isDigitC (c : Char) : Bool :=
  48 ≤ c.toNat && c.toNat ≤ 57

/-- Hangul syllable class `[가-힣]` of WORD_PATTERN (U+AC00 to U+D7A3). -/
def isHangulC (c : Char) : Bool :=
  44032 ≤ c.toNat && c.toNat ≤ 55203

/-- The apostrophe character appearing in WORD_PATTERN. -/
def aposC : Char := Char.ofNat 39

/-- Whitespace as matched by the regex class backslash-s (ASCII part). -/
def isSpaceC (c : Char) : Bool :=
  (c == ' ') || (c == '\t') || (c == '\n') || (c == '\r') ||
    (c.toNat == 11) || (c.toNat == 12)

/-- Sentence-terminal markers of the split pattern in `split_sentences`:
the class contains `.`, `!`, `?`, `。` (the listed full-width marks are ASCII
duplicates in the source), plus the alternative `다`. -/
def isMarkerC (c : Char) : Bool :=
  (c == '.') || (c == '!') || (c == '?') || (c == '。') || (c == '다')

/-- The stop-word list (the Python set literal, in source order; the repeated
entries of the literal are kept, membership is unaffected). -/
def STOPWORDS : List (List Char) :=
  ["a", "an", "the", "and", "or", "but", "if", "then", "so", "because", "as",
   "of", "in", "on", "at", "to", "for", "from", "by", "with",
   "about", "into", "through", "during", "before", "after", "above", "below",
   "up", "down", "out", "over", "under", "again", "further",
   "here", "there", "when", "where", "why", "how", "all", "any", "both",
   "each", "few", "more", "most", "other", "some", "such", "no",
   "nor", "not", "only", "own", "same", "so", "than", "too", "very", "can",
   "will", "just", "should", "now",
   "이", "그", "저", "것", "수", "등", "및", "또는", "그리고", "그래서",
   "또한", "은", "는", "이", "가", "을", "를", "의", "에", "에서", "으로",
   "로", "와", "과", "도", "만"].map (fun w => w.data)

/-- Tokenizer for WORD_PATTERN: a Latin-letter run optionally followed by an
apostrophe and a further Latin-letter run, or a digit run optionally followed
by a dot and a further digit run, or a Hangul run; left-to-right
non-overlapping matches, skipping unmatched characters. -/
def tokenize (s : List Char) : List (List Char) :=
  match s with
  | [] => []
  | c :: rest =>
    if isLatinC c then
      if (rest.dropWhile isLatinC).head? = some aposC ∧
          (rest.dropWhile isLatinC).tail.takeWhile isLatinC ≠ [] then
        ((c :: rest.takeWhile isLatinC) ++
            aposC :: (rest.dropWhile isLatinC).tail.takeWhile isLatinC) ::
          tokenize ((rest.dropWhile isLatinC).tail.dropWhile isLatinC)
      else if rest.dropWhile isLatinC = [] then [c :: rest.takeWhile isLatinC]
      else (c :: rest.takeWhile isLatinC) :: tokenize (rest.dropWhile isLatinC)
    else if isDigitC c then
      if (rest.dropWhile isDigitC).head? = some '.' ∧
          (rest.dropWhile isDigitC).tail.takeWhile isDigitC ≠ [] then
        ((c :: rest.takeWhile isDigitC) ++
            '.' :: (rest.dropWhile isDigitC).tail.takeWhile isDigitC) ::
          tokenize ((rest.dropWhile isDigitC).tail.dropWhile isDigitC)
      else if rest.dropWhile isDigitC = [] then [c :: rest.takeWhile isDigitC]
      else (c :: rest.takeWhile isDigitC) :: tokenize (rest.dropWhile isDigitC)
    else if isHangulC c then
      (c :: rest.takeWhile isHangulC) :: tokenize (rest.dropWhile isHangulC)
    else
      tokenize rest
termination_by s.length
decreasing_by
  · have h1 := (List.dropWhile_sublist (l := rest) isLatinC).length_le
    have h2 := (List.dropWhile_sublist
      (l := (rest.dropWhile isLatinC).tail) isLatinC).length_le
    have h3 := List.length_tail (rest.dropWhile isLatinC)
    simp
    omega
  · have h1 := (List.dropWhile_sublist (l := rest) isLatinC).length_le
    simp
    omega
  · have h1 := (List.dropWhile_sublist (l := rest) isDigitC).length_le
    have h2 := (List.dropWhile_sublist
      (l := (rest.dropWhile isDigitC).tail) isDigitC).length_le
    have h3 := List.length_tail (rest.dropWhile isDigitC)
    simp
    omega
  · have h1 := (List.dropWhile_sublist (l := rest) isDigitC).length_le
    simp
    omega
  · have h1 := (List.dropWhile_sublist (l := rest) isHangulC).length_le
    simp
    omega
  · simp

/-- Maximal digit runs of a string, in order: findall of one-or-more digits. -/
def digitRuns (s : List Char) : List (List Char) :=
  match s with
  | [] => []
  | c :: rest =>
    if isDigitC c then
      (c :: rest.takeWhile isDigitC) :: digitRuns (rest.dropWhile isDigitC)
    else
      digitRuns rest
termination_by s.length
decreasing_by
  · have h1 := (List.dropWhile_sublist (l := rest) isDigitC).length_le
    simp
    omega
  · simp

/-- Boolean test that `p` is an initial segment of `s`. -/
def leadsWith : List Char → List Char → Bool
  | [], _ => true
  | _ :: _, [] => false
  | a :: as, b :: bs => (a == b) && leadsWith as bs

/-- Boolean substring search, as performed by `pattern.search(sent)` for an
escaped literal pattern. -/
def hasSub (p : List Char) : List Char → Bool
  | [] => leadsWith p []
  | c :: rest => leadsWith p (c :: rest) || hasSub p rest

/-- Replace the first occurrence of `p` in `s` by `r`:
`s.replace(p, r, 1)`, also `re.sub(escaped p, r, s, count=1)`. -/
def replaceFirst (s p r : List Char) : List Char :=
  match s with
  | [] => if p = [] then r else []
  | c :: rest =>
    if leadsWith p (c :: rest) then r ++ (c :: rest).drop p.length
    else c :: replaceFirst rest p r

/-- Number of positions of `s` at which `p` occurs (all starting positions,
including the end-of-string position for an empty pattern). -/
def countOccur (p : List Char) : List Char → Nat
  | [] => if leadsWith p [] then 1 else 0
  | c :: rest => (if leadsWith p (c :: rest) then 1 else 0) + countOccur p rest

/-- Strip leading whitespace. -/
def trimL (l : List Char) : List Char := l.dropWhile isSpaceC

/-- Strip trailing whitespace. -/
def trimR (l : List Char) : List Char := (l.reverse.dropWhile isSpaceC).reverse

/-- Python `str.strip()`. -/
def trim (l : List Char) : List Char := trimR (trimL l)

/-- Collapse every maximal whitespace run to a single space:
`re.sub(r'\s+', ' ', text)`. -/
def collapseWs (s : List Char) : List Char :=
  match s with
  | [] => []
  | c :: rest =>
    if isSpaceC c then ' ' :: collapseWs (rest.dropWhile isSpaceC)
    else c :: collapseWs rest
termination_by s.length
decreasing_by
  · have h1 := (List.dropWhile_sublist (l := rest) isSpaceC).length_le
    simp
    omega
  · simp

/-- Split at whitespace preceded by a terminal marker, the behavior of
the split regex (lookbehind marker, then whitespace) on whitespace-normalized text
(where every whitespace run is a single space). `acc` holds the current
fragment reversed. -/
def splitAux (acc : List Char) : List Char → List (List Char)
  | [] => [acc.reverse]
  | c :: rest =>
    if isSpaceC c && (match acc with | p :: _ => isMarkerC p | [] => false) then
      acc.reverse :: splitAux [] rest
    else splitAux (c :: acc) rest

/-- Sentence splitter `split_sentences`. -/
def split_sentences (text : List Char) : List (List Char) :=
  if text = [] then []
  else
    ((splitAux [] (trim (collapseWs text))).map trim).filter (fun p => 3 ≤ p.length)

/-- ASCII lower-casing of one character (`str.lower()` restricted to the
characters a token can contain). -/
def lowerC (c : Char) : Char :=
  if 65 ≤ c.toNat && c.toNat ≤ 90 then Char.ofNat (c.toNat + 32) else c

/-- Lower-case a token, `t.lower()`. -/
def lowerS (l : List Char) : List Char := l.map lowerC

/-- Decimal digit character for `d < 10`. -/
def digitChar (d : Nat) : Char := Char.ofNat (48 + d)

/-- Fueled decimal rendering; `natToStr` supplies enough fuel. -/
def natToStrF : Nat → Nat → List Char
  | 0, _ => []
  | fuel + 1, n =>
    if n < 10 then [digitChar n] else natToStrF fuel (n / 10) ++ [digitChar (n % 10)]

/-- Decimal rendering of a natural number, Python `str(i)` for `i ≥ 0`. -/
def natToStr (n : Nat) : List Char := natToStrF (n + 1) n

/-- Decimal parsing of a digit string, Python `int(s)` on a digit run. -/
def strToNat (l : List Char) : Nat :=
  l.foldl (fun a c => 10 * a + (c.toNat - 48)) 0

/-- First occurrences of the elements, in order; the key order of a Python
`Counter`/dict built by insertion. -/
def firstDedup (l : List (List Char)) : List (List Char) :=
  match l with
  | [] => []
  | t :: rest => t :: firstDedup (rest.filter (fun x => x ≠ t))
termination_by l.length
decreasing_by
  simp only [List.length_cons]
  exact Nat.lt_succ_of_le (List.length_filter_le _ _)


/-- All tokens of all sentences, concatenated in order (`score_tokens` body). -/
def allTokens (sents : List (List Char)) : List (List Char) :=
  (sents.map tokenize).flatten

/-- The tokens kept for counting: lowercase form not a stop-word. -/
def keptTokens (sents : List (List Char)) : List (List Char) :=
  (allTokens sents).filter (fun t => !(STOPWORDS.contains (lowerS t)))

/-- Score of a term: `frequency + len(term)/4`, as an exact rational. -/
def termScore (kept : List (List Char)) (t : List Char) : ℚ :=
  (kept.count t : ℚ) + (t.length : ℚ) / 4

/-- Comparator of `sorted(..., key=lambda x: x[1], reverse=True)`:
`a` may precede `b` when the score of `a` is at least that of `b`. -/
def scoreGE (a b : List Char × ℚ) : Prop := b.2 ≤ a.2

instance : DecidableRel scoreGE := fun a b => inferInstanceAs (Decidable (b.2 ≤ a.2))

/-- Term scorer `score_tokens`.  the Python builtin `sorted` is a stable sort; with the
descending comparator `scoreGE`, the stable `insertionSort` computes the same
list.  The first parameter is accepted and ignored, as in the source. -/
def score_tokens (text : List Char) (sents : List (List Char)) : List (List Char × ℚ) :=
  List.insertionSort scoreGE
    ((firstDedup (keptTokens sents)).map (fun t => (t, termScore (keptTokens sents) t)))

/-- The blank marker inserted by `make_fill_in_blank`. -/
def blankMarker : List Char := "____".data

/-- Python `max(toks, key=len)`: the first element of maximal length. -/
def maxByLen (l : List (List Char)) : List Char :=
  match l with
  | [] => []
  | t :: rest => rest.foldl (fun cur x => if cur.length < x.length then x else cur) t

/-- Fill-in-the-blank generator `make_fill_in_blank`.  The Python pair
`(question, target)` / `(None, None)` is modelled as an `Option` of a pair
(the question always contains the nonempty marker, so the Python test `if q:`
truthiness test agrees with `isSome`). -/
def make_fill_in_blank (sent : List Char) (scored : List (List Char × ℚ)) :
    Option (List Char × List Char) :=
  let toks := tokenize sent
  let cands := toks.filter (fun t => decide (2 ≤ t.length) && !(STOPWORDS.contains t))
  let cands := if cands = [] ∧ toks ≠ [] then [maxByLen toks] else cands
  match cands.find? (fun t => hasSub t sent) with
  | some target => some (replaceFirst sent target blankMarker, target)
  | none => none

/-- One true/false item (a `{"statement","answer","explanation"}` dict). -/
structure TFItem where
  statement : List Char
  answer : Bool
  explanation : List Char
deriving DecidableEq

/-- One fill-blank item (a `{"question","answer"}` dict). -/
structure BlankItem where
  question : List Char
  answer : List Char
deriving DecidableEq

/-- The `{"tf": ..., "blank": ...}` result of `generate_quiz`. -/
structure QuizResult where
  tf : List TFItem
  blank : List BlankItem
deriving DecidableEq

/-- The rightwards arrow used in the explanation f-string. -/
def arrowC : Char := Char.ofNat 8594

/-- True/false generator `make_true_false`.  The draws of the random source
are explicit: `coin` is the outcome of `rnd.random() < 0.6`, `pick` selects
`rnd.choice(nums)` as `nums[pick % len(nums)]`, and `d` seeds
`rnd.randint(1,10)` as `1 + d % 10`. -/
def make_true_false (sent : List Char) (scored : List (List Char × ℚ))
    (coin : Bool) (pick : Nat) (d : Nat) : TFItem :=
  let base := "원문: ".data ++ aposC :: (sent ++ [aposC])
  let nums := digitRuns sent
  if nums ≠ [] ∧ coin then
    let n := nums.getD (pick % nums.length) []
    let offset := 1 + d % 10
    let newN := natToStr (strToNat n + offset)
    ⟨replaceFirst sent n newN, false,
      base ++ " -> 숫자 변경 ".data ++ n ++ arrowC :: newN⟩
  else
    ⟨sent, true, base⟩

/-- The true/false update of one loop iteration of `generate_quiz`:
append an item while the quota is unmet. -/
def tfStep (scored : List (List Char × ℚ)) (numTF : Nat) (o : Bool × Nat × Nat)
    (s : List Char) (tfs : List TFItem) : List TFItem :=
  if tfs.length < numTF then
    tfs ++ [make_true_false s scored o.1 o.2.1 o.2.2]
  else tfs

/-- The fill-blank update of one loop iteration of `generate_quiz`: while the
quota is unmet, append the generated item, skipping a `none` result
(the Python test `if q:`). -/
def blankStep (scored : List (List Char × ℚ)) (numBlank : Nat)
    (s : List Char) (blanks : List BlankItem) : List BlankItem :=
  if blanks.length < numBlank then
    match make_fill_in_blank s scored with
    | some qa => blanks ++ [⟨qa.1, qa.2⟩]
    | none => blanks
  else blanks

/-- The sentence loop of `generate_quiz`: per sentence, the two updates, then
the early exit once both quotas are met.  `oracle i` supplies the random
outcomes consumed by the `make_true_false` call of iteration `i` (the single
`random.Random()` instance created per call, made explicit). -/
def quizLoop (scored : List (List Char × ℚ)) (numTF numBlank : Nat)
    (oracle : Nat → Bool × Nat × Nat) :
    List (List Char) → Nat → List TFItem → List BlankItem → QuizResult
  | [], _, tfs, blanks => ⟨tfs, blanks⟩
  | s :: rest, i, tfs, blanks =>
    if numTF ≤ (tfStep scored numTF (oracle i) s tfs).length ∧
        numBlank ≤ (blankStep scored numBlank s blanks).length then
      ⟨tfStep scored numTF (oracle i) s tfs, blankStep scored numBlank s blanks⟩
    else
      quizLoop scored numTF numBlank oracle rest (i + 1)
        (tfStep scored numTF (oracle i) s tfs) (blankStep scored numBlank s blanks)

/-- Quiz orchestrator `generate_quiz`.  The `random.Random()` instance it
creates internally is modelled by the explicit `oracle` of per-iteration
outcomes; it is not a parameter of the Python function. -/
def generate_quiz (text : List Char) (numTF numBlank : Nat)
    (oracle : Nat → Bool × Nat × Nat) : QuizResult :=
  quizLoop (score_tokens text (split_sentences text)) numTF numBlank oracle
    (split_sentences text) 0 [] []

/-- Discussion prompt generator `generate_discussion_topics`. -/
def generate_discussion_topics (text : List Char) (num : Nat) : List (List Char) :=
  ((split_sentences text).take num).map
    (fun s => aposC :: (s ++ aposC :: "의 핵심 의미와 사회적/역사적 영향을 토론하시오.".data))

/-- Render a numbered list: item `i` becomes `"{i}) {body}\n"`. -/
def numberedList (bodies : List (List Char)) : List Char :=
  ((bodies.enumFrom 1).map
    (fun p => natToStr p.1 ++ ") ".data ++ p.2 ++ ['\n'])).flatten

/-- The body rendered for one true/false item. -/
def tfBody (q : TFItem) : List Char :=
  q.statement ++ "\n   정답: ".data ++
    (if q.answer then "O(참)".data else "X(거짓)".data) ++
    "\n   해설: ".data ++ q.explanation

/-- The body rendered for one fill-blank item. -/
def blankBody (q : BlankItem) : List Char :=
  q.question ++ "\n   정답: ".data ++ q.answer

/-- Output formatter `format_output`: one section per enabled, non-empty
category (Python truthiness of a list is non-emptiness). -/
def format_output (discussions : List (List Char)) (quiz : QuizResult)
    (showD showTF showB : Bool) : List Char :=
  (if showD = true ∧ discussions ≠ [] then
      "### 토론 주제\n".data ++ numberedList discussions ++ ['\n']
    else []) ++
  (if showTF = true ∧ quiz.tf ≠ [] then
      "### OX 문제\n".data ++ numberedList (quiz.tf.map tfBody) ++ ['\n']
    else []) ++
  (if showB = true ∧ quiz.blank ≠ [] then
      "### 빈칸 채우기\n".data ++ numberedList (quiz.blank.map blankBody) ++ ['\n']
    else [])

/-- Top-level entry `generate_all`: checkbox labels select the sections. -/
def generate_all (text : List Char) (types : List (List Char))
    (numDiscussion numTF numBlank : Nat) (oracle : Nat → Bool × Nat × Nat) :
    List Char :=
  let showD := types.contains "토론 주제".data
  let showTF := types.contains "OX 문제".data
  let showB := types.contains "빈칸 문제".data
  let discussions :=
    if showD then generate_discussion_topics text numDiscussion else []
  let quiz := generate_quiz text numTF numBlank oracle
  format_output discussions quiz showD showTF showB

/-! ### Basic facts about the string primitives -/

theorem leadsWith_iff (p s : List Char) : leadsWith p s = true ↔ ∃ t, s = p ++ t := by
  induction p generalizing s with
  | nil => simp [leadsWith]
  | cons a as ih =>
    cases s with
    | nil => simp [leadsWith]
    | cons b bs =>
      simp only [leadsWith, Bool.and_eq_true, beq_iff_eq, ih, List.cons_append,
        List.cons.injEq]
      constructor
      · rintro ⟨rfl, t, rfl⟩
        exact ⟨t, rfl, rfl⟩
      · rintro ⟨t, rfl, rfl⟩
        exact ⟨rfl, t, rfl⟩

theorem hasSub_iff (p s : List Char) :
    hasSub p s = true ↔ ∃ pre post, s = pre ++ p ++ post := by
  induction s with
  | nil =>
    simp only [hasSub, leadsWith_iff]
    constructor
    · rintro ⟨t, ht⟩
      exact ⟨[], t, by simpa using ht⟩
    · rintro ⟨pre, post, h⟩
      have h2 := congrArg List.length h
      simp at h2
      have hp : p = [] := List.length_eq_zero.mp (by omega)
      exact ⟨[], by simp [hp]⟩
  | cons c rest ih =>
    simp only [hasSub, Bool.or_eq_true, leadsWith_iff, ih]
    constructor
    · rintro (⟨t, ht⟩ | ⟨pre, post, h⟩)
      · exact ⟨[], t, by simpa using ht⟩
      · exact ⟨c :: pre, post, by simp [h]⟩
    · rintro ⟨pre, post, h⟩
      cases pre with
      | nil => exact Or.inl ⟨post, by simpa using h⟩
      | cons d pre' =>
        simp only [List.cons_append, List.cons.injEq] at h
        exact Or.inr ⟨pre', post, h.2⟩

theorem replaceFirst_decomp (p r s : List Char) (h : hasSub p s = true) :
    ∃ pre post, s = pre ++ p ++ post ∧ replaceFirst s p r = pre ++ r ++ post := by
  induction s with
  | nil =>
    have hp : p = [] := by
      rcases (hasSub_iff p []).mp h with ⟨pre, post, hd⟩
      have h2 := congrArg List.length hd
      simp at h2
      exact List.length_eq_zero.mp (by omega)
    exact ⟨[], [], by simp [hp], by simp [replaceFirst, hp]⟩
  | cons c rest ih =>
    by_cases hl : leadsWith p (c :: rest) = true
    · rcases (leadsWith_iff p (c :: rest)).mp hl with ⟨t, ht⟩
      refine ⟨[], t, by simpa using ht, ?_⟩
      rw [replaceFirst, if_pos hl, ht, List.drop_left]
      simp
    · have hs : hasSub p rest = true := by
        have := h
        rw [hasSub, Bool.or_eq_true] at this
        rcases this with h1 | h2
        · exact absurd h1 hl
        · exact h2
      rcases ih hs with ⟨pre, post, h1, h2⟩
      refine ⟨c :: pre, post, by simp [h1], ?_⟩
      rw [replaceFirst, if_neg hl, h2]
      simp

theorem leadsWith_head_ne (d : Char) (q s : List Char)
    (h : s.head? ≠ some d) : leadsWith (d :: q) s = false := by
  cases s with
  | nil => rfl
  | cons c rest =>
    have hdc : (d == c) = false := by
      simp only [List.head?_cons, ne_eq, Option.some.injEq] at h
      rw [beq_eq_false_iff_ne]
      exact fun hx => h hx.symm
    simp [leadsWith, hdc]

theorem countOccur_append_not_mem (d : Char) (q xs ys : List Char) (h : d ∉ xs) :
    countOccur (d :: q) (xs ++ ys) = countOccur (d :: q) ys := by
  induction xs with
  | nil => simp
  | cons x xs' ih =>
    simp only [List.mem_cons, not_or] at h
    have hl : leadsWith (d :: q) (x :: (xs' ++ ys)) = false := by
      apply leadsWith_head_ne
      simp
      exact fun hx => h.1 hx.symm
    rw [List.cons_append, countOccur, hl]
    simp [ih h.2]

theorem countOccur_zero_not_mem (d : Char) (q ys : List Char) (h : d ∉ ys) :
    countOccur (d :: q) ys = 0 := by
  have h2 := countOccur_append_not_mem d q ys [] h
  simp only [List.append_nil] at h2
  rw [h2]
  rfl

theorem replaceFirst_append_not_mem (d : Char) (q xs ys r : List Char) (h : d ∉ xs) :
    replaceFirst (xs ++ ys) (d :: q) r = xs ++ replaceFirst ys (d :: q) r := by
  induction xs with
  | nil => simp
  | cons x xs' ih =>
    simp only [List.mem_cons, not_or] at h
    have hl : leadsWith (d :: q) (x :: (xs' ++ ys)) = false := by
      apply leadsWith_head_ne
      simp
      exact fun hx => h.1 hx.symm
    rw [List.cons_append, replaceFirst, if_neg (by simp [hl]), ih h.2]
    simp

/-! ### Trimming -/

theorem dropWhile_self_eq (p : Char → Bool) (x : List Char) :
    (x.dropWhile p).dropWhile p = x.dropWhile p := by
  induction x with
  | nil => rfl
  | cons c rest ih =>
    by_cases hc : p c
    · rw [List.dropWhile_cons_of_pos hc]
      exact ih
    · rw [List.dropWhile_cons_of_neg hc, List.dropWhile_cons_of_neg hc]

theorem dropWhile_head_false (p : Char → Bool) (l : List Char) (c : Char)
    (t : List Char) (h : l.dropWhile p = c :: t) : p c = false := by
  induction l with
  | nil => simp at h
  | cons a rest ih =>
    by_cases ha : p a
    · rw [List.dropWhile_cons_of_pos ha] at h
      exact ih h
    · rw [List.dropWhile_cons_of_neg ha] at h
      injection h with h1 h2
      subst h1
      simpa using ha

theorem trimR_decomp (z : List Char) : ∃ w, z = trimR z ++ w := by
  rcases List.dropWhile_suffix (l := z.reverse) isSpaceC with ⟨t, ht⟩
  refine ⟨t.reverse, ?_⟩
  conv_lhs => rw [← z.reverse_reverse, ← ht]
  simp [trimR]

theorem trimL_trim (l : List Char) : trimL (trim l) = trim l := by
  match h : trim l with
  | [] => simp [trimL]
  | c :: t =>
    rcases trimR_decomp (trimL l) with ⟨w, hw⟩
    have hz : trimL l = (c :: t) ++ w := by rw [← h]; exact hw
    have hc : isSpaceC c = false :=
      dropWhile_head_false isSpaceC l c (t ++ w) (by simpa using hz)
    rw [trimL, List.dropWhile_cons_of_neg (by simp [hc])]

theorem trimR_trim (l : List Char) : trimR (trim l) = trim l := by
  show trimR (trimR (trimL l)) = trimR (trimL l)
  rw [trimR, trimR, List.reverse_reverse, dropWhile_self_eq]

theorem trim_trim (l : List Char) : trim (trim l) = trim l := by
  calc trim (trim l) = trimR (trimL (trim l)) := rfl
    _ = trimR (trim l) := by rw [trimL_trim]
    _ = trim l := trimR_trim l

/-! ### Decimal rendering and parsing -/

theorem digitChar_toNat (d : Nat) (h : d < 10) : (digitChar d).toNat = 48 + d := by
  interval_cases d <;> rfl

theorem natToStrF_congr (f1 f2 n : Nat) (h1 : n < f1) (h2 : n < f2) :
    natToStrF f1 n = natToStrF f2 n := by
  induction f1 generalizing f2 n with
  | zero => omega
  | succ g1 ih =>
    cases f2 with
    | zero => omega
    | succ g2 =>
      rw [natToStrF, natToStrF]
      by_cases hn : n < 10
      · simp [hn]
      · rw [if_neg hn, if_neg hn, ih g2 (n / 10) (by omega) (by omega)]

theorem strToNat_append_digit (xs : List Char) (c : Char) :
    strToNat (xs ++ [c]) = 10 * strToNat xs + (c.toNat - 48) := by
  simp [strToNat, List.foldl_append]

theorem strToNat_natToStr (n : Nat) : strToNat (natToStr n) = n := by
  induction n using Nat.strong_induction_on with
  | _ n ih =>
    rw [natToStr, natToStrF]
    by_cases hn : n < 10
    · rw [if_pos hn]
      simp [strToNat, digitChar_toNat n hn]
    · rw [if_neg hn]
      rw [natToStrF_congr n (n / 10 + 1) (n / 10) (by omega) (by omega)]
      rw [strToNat_append_digit]
      rw [show natToStrF (n / 10 + 1) (n / 10) = natToStr (n / 10) from rfl]
      rw [ih (n / 10) (by omega)]
      rw [digitChar_toNat (n % 10) (by omega)]
      omega

/-! ### takeWhile and dropWhile helpers -/

theorem takeWhile_all_true (p : Char → Bool) (l : List Char) :
    ∀ c ∈ l.takeWhile p, p c = true := by
  intro c hc
  have h := List.all_takeWhile (p := p) (l := l)
  rw [List.all_eq_true] at h
  exact h c hc

theorem takeWhile_of_all (p : Char → Bool) (l : List Char)
    (h : ∀ c ∈ l, p c = true) : l.takeWhile p = l := by
  induction l with
  | nil => rfl
  | cons c rest ih =>
    rw [List.takeWhile_cons_of_pos (h c (by simp))]
    rw [ih (fun x hx => h x (by simp [hx]))]

theorem dropWhile_of_all (p : Char → Bool) (l : List Char)
    (h : ∀ c ∈ l, p c = true) : l.dropWhile p = [] := by
  induction l with
  | nil => rfl
  | cons c rest ih =>
    rw [List.dropWhile_cons_of_pos (h c (by simp))]
    exact ih (fun x hx => h x (by simp [hx]))

theorem takeWhile_append_stop (p : Char → Bool) (xs : List Char) (q : Char)
    (ys : List Char) (hxs : ∀ c ∈ xs, p c = true) (hq : p q = false) :
    (xs ++ q :: ys).takeWhile p = xs := by
  have hq2 : ¬ p q = true := by simp [hq]
  induction xs with
  | nil => simp [List.takeWhile_cons_of_neg hq2]
  | cons x xs' ih =>
    rw [List.cons_append, List.takeWhile_cons_of_pos (hxs x (by simp))]
    rw [ih (fun c hc => hxs c (by simp [hc]))]

theorem dropWhile_append_stop (p : Char → Bool) (xs : List Char) (q : Char)
    (ys : List Char) (hxs : ∀ c ∈ xs, p c = true) (hq : p q = false) :
    (xs ++ q :: ys).dropWhile p = q :: ys := by
  have hq2 : ¬ p q = true := by simp [hq]
  induction xs with
  | nil => simp [List.dropWhile_cons_of_neg hq2]
  | cons x xs' ih =>
    rw [List.cons_append, List.dropWhile_cons_of_pos (hxs x (by simp))]
    exact ih (fun c hc => hxs c (by simp [hc]))

/-! ### Character class facts -/

theorem digit_not_latin (c : Char) (h : isDigitC c = true) : isLatinC c = false := by
  simp [isDigitC, isLatinC] at h ⊢
  omega

theorem hangul_not_latin (c : Char) (h : isHangulC c = true) : isLatinC c = false := by
  simp [isHangulC, isLatinC] at h ⊢
  omega

theorem hangul_not_digit (c : Char) (h : isHangulC c = true) : isDigitC c = false := by
  simp [isHangulC, isDigitC] at h ⊢
  omega

/-! ### Shapes of emitted tokens -/

theorem head_some_cons (p : Char → Bool) (rest : List Char) (j : Char)
    (h : (rest.dropWhile p).head? = some j) :
    ∃ r2, rest.dropWhile p = j :: r2 := by
  cases hx : rest.dropWhile p with
  | nil => rw [hx] at h; simp at h
  | cons q r2 =>
    rw [hx] at h
    simp only [List.head?_cons, Option.some.injEq] at h
    exact ⟨r2, by rw [h]⟩

theorem tokenize_latin_word (c : Char) (w : List Char) (hc : isLatinC c = true)
    (hw : ∀ x ∈ w, isLatinC x = true) : tokenize (c :: w) = [c :: w] := by
  have hd : w.dropWhile isLatinC = [] := dropWhile_of_all _ _ hw
  have ht : w.takeWhile isLatinC = w := takeWhile_of_all _ _ hw
  rw [tokenize, hd, ht]
  simp [hc]

theorem tokenize_latin_apos (c : Char) (w w2 : List Char) (hc : isLatinC c = true)
    (hw : ∀ x ∈ w, isLatinC x = true) (hw2 : ∀ x ∈ w2, isLatinC x = true)
    (hne : w2 ≠ []) :
    tokenize (c :: (w ++ aposC :: w2)) = [c :: (w ++ aposC :: w2)] := by
  have hapos : isLatinC aposC = false := by decide
  have hd : (w ++ aposC :: w2).dropWhile isLatinC = aposC :: w2 :=
    dropWhile_append_stop _ _ _ _ hw hapos
  have ht : (w ++ aposC :: w2).takeWhile isLatinC = w :=
    takeWhile_append_stop _ _ _ _ hw hapos
  have ht2 : w2.takeWhile isLatinC = w2 := takeWhile_of_all _ _ hw2
  have hd2 : w2.dropWhile isLatinC = [] := dropWhile_of_all _ _ hw2
  rw [tokenize, hd, ht]
  simp only [List.head?_cons, List.tail_cons, ht2, hd2]
  rw [if_pos hc, if_pos ⟨trivial, hne⟩]
  simp [tokenize]

theorem tokenize_digit_word (c : Char) (w : List Char) (hc : isDigitC c = true)
    (hw : ∀ x ∈ w, isDigitC x = true) : tokenize (c :: w) = [c :: w] := by
  have hcl : isLatinC c = false := digit_not_latin c hc
  have hd : w.dropWhile isDigitC = [] := dropWhile_of_all _ _ hw
  have ht : w.takeWhile isDigitC = w := takeWhile_of_all _ _ hw
  rw [tokenize, hd, ht]
  simp [hcl, hc]

theorem tokenize_digit_dot (c : Char) (w w2 : List Char) (hc : isDigitC c = true)
    (hw : ∀ x ∈ w, isDigitC x = true) (hw2 : ∀ x ∈ w2, isDigitC x = true)
    (hne : w2 ≠ []) :
    tokenize (c :: (w ++ '.' :: w2)) = [c :: (w ++ '.' :: w2)] := by
  have hcl : isLatinC c = false := digit_not_latin c hc
  have hdot : isDigitC '.' = false := by decide
  have hd : (w ++ '.' :: w2).dropWhile isDigitC = '.' :: w2 :=
    dropWhile_append_stop _ _ _ _ hw hdot
  have ht : (w ++ '.' :: w2).takeWhile isDigitC = w :=
    takeWhile_append_stop _ _ _ _ hw hdot
  have ht2 : w2.takeWhile isDigitC = w2 := takeWhile_of_all _ _ hw2
  have hd2 : w2.dropWhile isDigitC = [] := dropWhile_of_all _ _ hw2
  have hlat : ∀ x ∈ w ++ '.' :: w2, isLatinC x = false := by
    intro x hx
    rcases List.mem_append.mp hx with h1 | h2
    · exact digit_not_latin x (hw x h1)
    · rcases List.mem_cons.mp h2 with rfl | h3
      · decide
      · exact digit_not_latin x (hw2 x h3)
  have hdl : (w ++ '.' :: w2).dropWhile isLatinC = w ++ '.' :: w2 := by
    cases hwc : w ++ '.' :: w2 with
    | nil => rfl
    | cons a as =>
      apply List.dropWhile_cons_of_neg
      have : a ∈ w ++ '.' :: w2 := by rw [hwc]; simp
      simp [hlat a this]
  rw [tokenize, if_neg (by simp [hcl]), if_pos hc, hd, ht]
  simp only [List.head?_cons, List.tail_cons, ht2, hd2]
  rw [if_pos ⟨trivial, hne⟩]
  simp [tokenize]

theorem tokenize_hangul_word (c : Char) (w : List Char) (hc : isHangulC c = true)
    (hw : ∀ x ∈ w, isHangulC x = true) : tokenize (c :: w) = [c :: w] := by
  have hcl : isLatinC c = false := hangul_not_latin c hc
  have hcd : isDigitC c = false := hangul_not_digit c hc
  have hd : w.dropWhile isHangulC = [] := dropWhile_of_all _ _ hw
  have ht : w.takeWhile isHangulC = w := takeWhile_of_all _ _ hw
  rw [tokenize, hd, ht]
  simp [hcl, hcd, hc, tokenize]

theorem tokenize_single (s : List Char) : ∀ t ∈ tokenize s, tokenize t = [t] := by
  induction s using tokenize.induct with
  | case1 => simp [tokenize]
  | case2 c rest hc hcond ih =>
    intro t ht
    rw [tokenize, if_pos hc, if_pos hcond] at ht
    rcases List.mem_cons.mp ht with rfl | hmem
    · have h := tokenize_latin_apos c (rest.takeWhile isLatinC)
        ((rest.dropWhile isLatinC).tail.takeWhile isLatinC) hc
        (takeWhile_all_true _ _) (takeWhile_all_true _ _) hcond.2
      simpa using h
    · exact ih t hmem
  | case3 c rest hc hcond hnil =>
    intro t ht
    rw [tokenize, if_pos hc, if_neg hcond, if_pos hnil] at ht
    rcases List.mem_cons.mp ht with rfl | hmem
    · exact tokenize_latin_word c _ hc (takeWhile_all_true _ _)
    · simp at hmem
  | case4 c rest hc hcond hne ih =>
    intro t ht
    rw [tokenize, if_pos hc, if_neg hcond, if_neg hne] at ht
    rcases List.mem_cons.mp ht with rfl | hmem
    · exact tokenize_latin_word c _ hc (takeWhile_all_true _ _)
    · exact ih t hmem
  | case5 c rest hcl hc hcond ih =>
    intro t ht
    rw [tokenize, if_neg hcl, if_pos hc, if_pos hcond] at ht
    rcases List.mem_cons.mp ht with rfl | hmem
    · have h := tokenize_digit_dot c (rest.takeWhile isDigitC)
        ((rest.dropWhile isDigitC).tail.takeWhile isDigitC) hc
        (takeWhile_all_true _ _) (takeWhile_all_true _ _) hcond.2
      simpa using h
    · exact ih t hmem
  | case6 c rest hcl hc hcond hnil =>
    intro t ht
    rw [tokenize, if_neg hcl, if_pos hc, if_neg hcond, if_pos hnil] at ht
    rcases List.mem_cons.mp ht with rfl | hmem
    · exact tokenize_digit_word c _ hc (takeWhile_all_true _ _)
    · simp at hmem
  | case7 c rest hcl hc hcond hne ih =>
    intro t ht
    rw [tokenize, if_neg hcl, if_pos hc, if_neg hcond, if_neg hne] at ht
    rcases List.mem_cons.mp ht with rfl | hmem
    · exact tokenize_digit_word c _ hc (takeWhile_all_true _ _)
    · exact ih t hmem
  | case8 c rest hcl hcd hc ih =>
    intro t ht
    rw [tokenize, if_neg hcl, if_neg hcd, if_pos hc] at ht
    rcases List.mem_cons.mp ht with rfl | hmem
    · exact tokenize_hangul_word c _ hc (takeWhile_all_true _ _)
    · exact ih t hmem
  | case9 c rest hcl hcd hch ih =>
    intro t ht
    rw [tokenize, if_neg hcl, if_neg hcd, if_neg hch] at ht
    exact ih t ht

theorem tokenize_mem_decomp (s : List Char) :
    ∀ t ∈ tokenize s, ∃ pre post, s = pre ++ t ++ post := by
  induction s using tokenize.induct with
  | case1 => simp [tokenize]
  | case2 c rest hc hcond ih =>
    intro t ht
    rw [tokenize, if_pos hc, if_pos hcond] at ht
    obtain ⟨r2, hr⟩ := head_some_cons isLatinC rest aposC hcond.1
    have hs : c :: rest =
        ((c :: rest.takeWhile isLatinC) ++ aposC :: r2.takeWhile isLatinC) ++
          r2.dropWhile isLatinC := by
      conv_lhs =>
        rw [← List.takeWhile_append_dropWhile (p := isLatinC) (l := rest), hr,
          ← List.takeWhile_append_dropWhile (p := isLatinC) (l := r2)]
      simp
    rw [hr] at ht
    simp only [List.tail_cons] at ht
    rcases List.mem_cons.mp ht with rfl | hmem
    · exact ⟨[], r2.dropWhile isLatinC, by simpa using hs⟩
    · rcases ih t (by rw [hr]; simpa using hmem) with ⟨pre, post, hp⟩
      rw [hr] at hp
      simp only [List.tail_cons] at hp
      refine ⟨((c :: rest.takeWhile isLatinC) ++ aposC :: r2.takeWhile isLatinC) ++ pre,
        post, ?_⟩
      rw [hs, hp]
      simp
  | case3 c rest hc hcond hnil =>
    intro t ht
    rw [tokenize, if_pos hc, if_neg hcond, if_pos hnil] at ht
    rcases List.mem_cons.mp ht with rfl | hmem
    · refine ⟨[], [], ?_⟩
      have hs : rest = rest.takeWhile isLatinC := by
        conv_lhs => rw [← List.takeWhile_append_dropWhile (p := isLatinC) (l := rest)]
        rw [hnil]
        simp
      simp [← hs]
    · simp at hmem
  | case4 c rest hc hcond hne ih =>
    intro t ht
    rw [tokenize, if_pos hc, if_neg hcond, if_neg hne] at ht
    have hs : c :: rest = (c :: rest.takeWhile isLatinC) ++ rest.dropWhile isLatinC := by
      conv_lhs => rw [← List.takeWhile_append_dropWhile (p := isLatinC) (l := rest)]
      simp
    rcases List.mem_cons.mp ht with rfl | hmem
    · exact ⟨[], rest.dropWhile isLatinC, by simpa using hs⟩
    · rcases ih t hmem with ⟨pre, post, hp⟩
      refine ⟨(c :: rest.takeWhile isLatinC) ++ pre, post, ?_⟩
      rw [hs, hp]
      simp
  | case5 c rest hcl hc hcond ih =>
    intro t ht
    rw [tokenize, if_neg hcl, if_pos hc, if_pos hcond] at ht
    obtain ⟨r2, hr⟩ := head_some_cons isDigitC rest '.' hcond.1
    have hs : c :: rest =
        ((c :: rest.takeWhile isDigitC) ++ '.' :: r2.takeWhile isDigitC) ++
          r2.dropWhile isDigitC := by
      conv_lhs =>
        rw [← List.takeWhile_append_dropWhile (p := isDigitC) (l := rest), hr,
          ← List.takeWhile_append_dropWhile (p := isDigitC) (l := r2)]
      simp
    rw [hr] at ht
    simp only [List.tail_cons] at ht
    rcases List.mem_cons.mp ht with rfl | hmem
    · exact ⟨[], r2.dropWhile isDigitC, by simpa using hs⟩
    · rcases ih t (by rw [hr]; simpa using hmem) with ⟨pre, post, hp⟩
      rw [hr] at hp
      simp only [List.tail_cons] at hp
      refine ⟨((c :: rest.takeWhile isDigitC) ++ '.' :: r2.takeWhile isDigitC) ++ pre,
        post, ?_⟩
      rw [hs, hp]
      simp
  | case6 c rest hcl hc hcond hnil =>
    intro t ht
    rw [tokenize, if_neg hcl, if_pos hc, if_neg hcond, if_pos hnil] at ht
    rcases List.mem_cons.mp ht with rfl | hmem
    · refine ⟨[], [], ?_⟩
      have hs : rest = rest.takeWhile isDigitC := by
        conv_lhs => rw [← List.takeWhile_append_dropWhile (p := isDigitC) (l := rest)]
        rw [hnil]
        simp
      simp [← hs]
    · simp at hmem
  | case7 c rest hcl hc hcond hne ih =>
    intro t ht
    rw [tokenize, if_neg hcl, if_pos hc, if_neg hcond, if_neg hne] at ht
    have hs : c :: rest = (c :: rest.takeWhile isDigitC) ++ rest.dropWhile isDigitC := by
      conv_lhs => rw [← List.takeWhile_append_dropWhile (p := isDigitC) (l := rest)]
      simp
    rcases List.mem_cons.mp ht with rfl | hmem
    · exact ⟨[], rest.dropWhile isDigitC, by simpa using hs⟩
    · rcases ih t hmem with ⟨pre, post, hp⟩
      refine ⟨(c :: rest.takeWhile isDigitC) ++ pre, post, ?_⟩
      rw [hs, hp]
      simp
  | case8 c rest hcl hcd hc ih =>
    intro t ht
    rw [tokenize, if_neg hcl, if_neg hcd, if_pos hc] at ht
    have hs : c :: rest = (c :: rest.takeWhile isHangulC) ++ rest.dropWhile isHangulC := by
      conv_lhs => rw [← List.takeWhile_append_dropWhile (p := isHangulC) (l := rest)]
      simp
    rcases List.mem_cons.mp ht with rfl | hmem
    · exact ⟨[], rest.dropWhile isHangulC, by simpa using hs⟩
    · rcases ih t hmem with ⟨pre, post, hp⟩
      refine ⟨(c :: rest.takeWhile isHangulC) ++ pre, post, ?_⟩
      rw [hs, hp]
      simp
  | case9 c rest hcl hcd hch ih =>
    intro t ht
    rw [tokenize, if_neg hcl, if_neg hcd, if_neg hch] at ht
    rcases ih t ht with ⟨pre, post, hp⟩
    exact ⟨c :: pre, post, by simp [hp]⟩

theorem tokenize_mem_hasSub (s t : List Char) (h : t ∈ tokenize s) :
    hasSub t s = true := by
  rcases tokenize_mem_decomp s t h with ⟨pre, post, hp⟩
  exact (hasSub_iff t s).mpr ⟨pre, post, hp⟩

theorem flatten_map_single (l : List (List Char)) (f : List Char → List (List Char))
    (h : ∀ t ∈ l, f t = [t]) : (l.map f).flatten = l := by
  induction l with
  | nil => rfl
  | cons t rest ih =>
    rw [List.map_cons, List.flatten_cons, h t (by simp),
      ih (fun x hx => h x (by simp [hx]))]
    rfl

theorem maxByLen_mem (l : List (List Char)) (h : l ≠ []) : maxByLen l ∈ l := by
  rcases l with _ | ⟨t, rest⟩
  · exact absurd rfl h
  · rw [maxByLen]
    have key : ∀ (xs : List (List Char)) (cur : List Char),
        xs.foldl (fun cur x => if cur.length < x.length then x else cur) cur ∈
          cur :: xs := by
      intro xs
      induction xs with
      | nil => simp
      | cons x xs' ih =>
        intro cur
        rw [List.foldl_cons]
        rcases List.mem_cons.mp (ih (if cur.length < x.length then x else cur)) with h1 | h2
        · rw [h1]
          by_cases hc : cur.length < x.length
        
          · simp [hc]
          · simp [hc]
        · simp [h2]
    exact key rest t

theorem make_fill_in_blank_none_iff (sent : List Char)
    (scored : List (List Char × ℚ)) :
    make_fill_in_blank sent scored = none ↔ tokenize sent = [] := by
  rw [make_fill_in_blank]
  constructor
  · intro h
    by_contra hne
    set cands0 := (tokenize sent).filter
      (fun t => decide (2 ≤ t.length) && !(STOPWORDS.contains t)) with hc0
    rcases hcc : (if cands0 = [] ∧ tokenize sent ≠ [] then [maxByLen (tokenize sent)]
        else cands0) with _ | ⟨t0, cands'⟩
    · by_cases hz : cands0 = []
      · rw [if_pos ⟨hz, hne⟩] at hcc
        simp at hcc
      · rw [if_neg (fun hx => hz hx.1)] at hcc
        exact hz hcc
    · have ht0 : t0 ∈ tokenize sent := by
        by_cases hz : cands0 = []
        · rw [if_pos ⟨hz, hne⟩] at hcc
          have ht : t0 = maxByLen (tokenize sent) := by
            have h2 := hcc.symm
            rw [List.cons.injEq] at h2
            exact h2.1
          rw [ht]
          exact maxByLen_mem _ hne
        · rw [if_neg (fun hx => hz hx.1)] at hcc
          have : t0 ∈ cands0 := by rw [hcc]; simp
          exact List.mem_filter.mp this |>.1
      rw [hcc] at h
      rcases hf : (t0 :: cands').find? (fun t => hasSub t sent) with _ | p
      · rw [List.find?_eq_none] at hf
        exact absurd (tokenize_mem_hasSub sent t0 ht0) (by simpa using hf t0 (by simp))
      · rw [hf] at h
        simp at h
  · intro h
    rw [h]
    rfl

/-! ### Loop invariants of the orchestrator -/

theorem tfStep_length (scored : List (List Char × ℚ)) (numTF : Nat)
    (o : Bool × Nat × Nat) (s : List Char) (tfs : List TFItem)
    (h : tfs.length ≤ numTF) :
    (tfStep scored numTF o s tfs).length = min numTF (tfs.length + 1) := by
  rw [tfStep]
  by_cases hc : tfs.length < numTF
  · rw [if_pos hc]
    simp
    omega
  · rw [if_neg hc]
    omega

theorem blankStep_length (scored : List (List Char × ℚ)) (numBlank : Nat)
    (s : List Char) (blanks : List BlankItem) (h : blanks.length ≤ numBlank) :
    (blankStep scored numBlank s blanks).length
      = min numBlank (blanks.length + (if tokenize s = [] then 0 else 1)) := by
  rw [blankStep]
  rcases hmf : make_fill_in_blank s scored with _ | qa
  · have hts : tokenize s = [] := (make_fill_in_blank_none_iff s scored).mp hmf
    by_cases hb : blanks.length < numBlank
    · rw [if_pos hb]
      simp [hts]
      omega
    · rw [if_neg hb]
      simp [hts]
      omega
  · have hts : ¬ tokenize s = [] := by
      intro hx
      rw [(make_fill_in_blank_none_iff s scored).mpr hx] at hmf
      exact Option.noConfusion hmf
    by_cases hb : blanks.length < numBlank
    · rw [if_pos hb]
      simp [hts]
      omega
    · rw [if_neg hb]
      simp [hts]
      omega

theorem quizLoop_spec (scored : List (List Char × ℚ)) (numTF numBlank : Nat)
    (oracle : Nat → Bool × Nat × Nat) (sents : List (List Char)) :
    ∀ (i : Nat) (tfs : List TFItem) (blanks : List BlankItem),
      tfs.length ≤ numTF → blanks.length ≤ numBlank →
      (quizLoop scored numTF numBlank oracle sents i tfs blanks).tf.length
          = min numTF (tfs.length + sents.length)
      ∧ (quizLoop scored numTF numBlank oracle sents i tfs blanks).blank.length
          = min numBlank
              (blanks.length + sents.countP (fun x => !(tokenize x).isEmpty)) := by
  induction sents with
  | nil =>
    intro i tfs blanks h1 h2
    rw [quizLoop]
    constructor
    · simp
      omega
    · simp
      omega
  | cons s rest ih =>
    intro i tfs blanks h1 h2
    have hδ : (s :: rest).countP (fun x => !(tokenize x).isEmpty)
        = rest.countP (fun x => !(tokenize x).isEmpty)
          + (if tokenize s = [] then 0 else 1) := by
      rw [List.countP_cons]
      by_cases hts : tokenize s = []
      · simp [hts]
      · simp [hts]
    have hA := tfStep_length scored numTF (oracle i) s tfs h1
    have hB := blankStep_length scored numBlank s blanks h2
    have hA2 : (tfStep scored numTF (oracle i) s tfs).length ≤ numTF := by omega
    have hB2 : (blankStep scored numBlank s blanks).length ≤ numBlank := by
      rw [hB]
      omega
    rw [quizLoop]
    by_cases hcond : numTF ≤ (tfStep scored numTF (oracle i) s tfs).length ∧
        numBlank ≤ (blankStep scored numBlank s blanks).length
    · rw [if_pos hcond]
      rcases hcond with ⟨hc1, hc2⟩
      constructor
      · simp only [List.length_cons]
        by_cases hts : tokenize s = [] <;> omega
      · rw [hδ]
        by_cases hts : tokenize s = []
        · rw [hts] at hB
          simp at hB
          simp
          omega
        · rw [if_neg hts] at hB
          rw [if_neg hts]
          simp
          omega
    · rw [if_neg hcond]
      rcases ih (i + 1) (tfStep scored numTF (oracle i) s tfs)
        (blankStep scored numBlank s blanks) hA2 hB2 with ⟨ih1, ih2⟩
      constructor
      · rw [ih1]
        simp only [List.length_cons]
        omega
      · rw [ih2, hδ]
        by_cases hts : tokenize s = []
        · rw [hts] at hB
          simp at hB
          rw [if_pos hts]
          omega
        · rw [if_neg hts] at hB
          rw [if_neg hts]
          omega

/-! ### Deduplication and sorting facts for the scorer -/

theorem firstDedup_mem (l : List (List Char)) : ∀ x, x ∈ firstDedup l ↔ x ∈ l := by
  induction l using firstDedup.induct with
  | case1 => simp [firstDedup]
  | case2 t rest ih =>
    intro x
    rw [firstDedup, List.mem_cons, ih x, List.mem_filter, List.mem_cons]
    constructor
    · rintro (rfl | ⟨h1, _⟩)
      · exact Or.inl rfl
      · exact Or.inr h1
    · rintro (rfl | h)
      · exact Or.inl rfl
      · by_cases hx : x = t
        · exact Or.inl hx
        · refine Or.inr ⟨h, ?_⟩
          simp [hx]

theorem firstDedup_nodup (l : List (List Char)) : (firstDedup l).Nodup := by
  induction l using firstDedup.induct with
  | case1 => simp [firstDedup]
  | case2 t rest ih =>
    rw [firstDedup]
    refine List.nodup_cons.mpr ⟨?_, ih⟩
    intro hmem
    have h2 := (firstDedup_mem _ t).mp hmem
    rw [List.mem_filter] at h2
    simp at h2

instance : IsTotal (List Char × ℚ) scoreGE :=
  ⟨fun a b => le_total b.2 a.2⟩

instance : IsTrans (List Char × ℚ) scoreGE :=
  ⟨fun _ _ _ h1 h2 => le_trans h2 h1⟩

/-! ### Blank-marker counting -/

theorem countOccur_blank (pre post : List Char) (h1 : ('_' : Char) ∉ pre)
    (h2 : ('_' : Char) ∉ post) :
    countOccur blankMarker (pre ++ (blankMarker ++ post)) = 1 := by
  have hbm : blankMarker = '_' :: '_' :: '_' :: '_' :: [] := by decide
  rw [hbm, countOccur_append_not_mem '_' _ pre _ h1]
  have hp : ∀ q : List Char, leadsWith ('_' :: q) post = false := by
    intro q
    apply leadsWith_head_ne
    cases post with
    | nil => simp
    | cons c cs =>
      simp only [List.head?_cons, ne_eq, Option.some.injEq]
      intro hc
      exact h2 (by simp [hc])
  have h0 : countOccur ('_' :: '_' :: '_' :: '_' :: []) post = 0 :=
    countOccur_zero_not_mem _ _ _ h2
  simp [countOccur, leadsWith, hp, h0]

theorem replaceFirst_blank (pre post a : List Char) (h1 : ('_' : Char) ∉ pre) :
    replaceFirst (pre ++ (blankMarker ++ post)) blankMarker a = pre ++ (a ++ post) := by
  have hbm : blankMarker = '_' :: '_' :: '_' :: '_' :: [] := by decide
  rw [hbm, replaceFirst_append_not_mem '_' _ pre _ a h1]
  have h3 : replaceFirst (('_' :: '_' :: '_' :: '_' :: []) ++ post)
      ('_' :: '_' :: '_' :: '_' :: []) a = a ++ post := by
    simp only [List.cons_append, List.nil_append]
    rw [replaceFirst]
    rw [if_pos (by simp [leadsWith])]
    simp
  rw [h3]

/-! ### Random choice helper -/

theorem getD_mod_mem (l : List (List Char)) (i : Nat) (d : List Char) (h : l ≠ []) :
    l.getD (i % l.length) d ∈ l := by
  have hlen : 0 < l.length := List.length_pos.mpr h
  have hmod : i % l.length < l.length := Nat.mod_lt _ hlen
  rw [List.getD_eq_getElem?_getD, List.getElem?_eq_getElem hmod]
  simpa using List.getElem_mem hmod

/-! ### Claim theorems -/

/-- C10: `score_tokens` ignores its first parameter — the ranking depends only
on the sentence list, never on the raw text argument. -/
theorem score_tokens_ignores_text (t1 t2 : List Char) (sents : List (List Char)) :
    score_tokens t1 sents = score_tokens t2 sents := rfl

/-- C9: tokenization is idempotent — concatenating, in order, the result of
tokenizing each token of `tokenize s` gives back exactly `tokenize s` (every
emitted token is itself a single maximal match of the lexical pattern). -/
theorem tokenize_idempotent (s : List Char) :
    ((tokenize s).map tokenize).flatten = tokenize s :=
  flatten_map_single _ _ (tokenize_single s)

/-- C8 (amended): `make_true_false` accepts the random outcomes explicitly, but
`generate_quiz` creates its own unseeded `random.Random()` internally; with the
internal source modelled as an explicit outcome stream, `generate_quiz` is
deterministic in the text, the counts and that stream: two calls with
pointwise-equal streams produce identical QuizResults. -/
theorem generate_quiz_oracle_deterministic (text : List Char) (numTF numBlank : Nat)
    (o1 o2 : Nat → Bool × Nat × Nat) (h : ∀ i, o1 i = o2 i) :
    generate_quiz text numTF numBlank o1 = generate_quiz text numTF numBlank o2 := by
  rw [funext h]

/-- Witness for the amended C8 theorem at a concrete text and concrete
(syntactically different, pointwise equal) outcome streams. -/
theorem generate_quiz_oracle_deterministic_witness :
    generate_quiz "It was 5 years old.".data 1 1 (fun _ => (true, 0, 0)) =
      generate_quiz "It was 5 years old.".data 1 1 (fun i => (true, 0, 0 * i)) :=
  generate_quiz_oracle_deterministic "It was 5 years old.".data 1 1 _ _
    (fun i => by simp)

unseal collapseWs tokenize digitRuns in
/-- C8 (counterexample): the claim says the orchestrator accepts a
caller-controllable random source so equal caller-visible arguments give equal
results; but the Python signature of `generate_quiz` takes no random source — it
depends on the internal unseeded stream, and two calls with the same text and
counts but different internal outcomes differ. -/
theorem generate_quiz_hidden_randomness :
    generate_quiz "It was 5 years old.".data 1 1 (fun _ => (true, 0, 0)) ≠
    generate_quiz "It was 5 years old.".data 1 1 (fun _ => (false, 0, 0)) := by
  decide

/-- C7: empty input degrades to an empty document — `split_sentences` of the
empty string is the empty sequence, and `generate_all` on the empty string
returns the empty document for any category flags and counts. -/
theorem generate_all_empty (types : List (List Char))
    (numDiscussion numTF numBlank : Nat) (oracle : Nat → Bool × Nat × Nat) :
    split_sentences [] = []
    ∧ generate_all [] types numDiscussion numTF numBlank oracle = [] := by
  refine ⟨rfl, ?_⟩
  simp [generate_all, generate_quiz, split_sentences, score_tokens,
    generate_discussion_topics, quizLoop, format_output]

/-- C5: every sentence produced by `split_sentences` is already stripped and
its trimmed length is at least 3. -/
theorem split_sentences_length_invariant (text : List Char) :
    ∀ x ∈ split_sentences text, trim x = x ∧ 3 ≤ (trim x).length := by
  intro x hx
  rw [split_sentences] at hx
  by_cases ht : text = []
  · rw [if_pos ht] at hx
    simp at hx
  · rw [if_neg ht] at hx
    rcases List.mem_filter.mp hx with ⟨hmap, hlen⟩
    rcases List.mem_map.mp hmap with ⟨p, _, hp⟩
    have htr : trim x = x := by rw [← hp, trim_trim]
    have hl : 3 ≤ x.length := by simpa using hlen
    rw [htr]
    exact ⟨rfl, hl⟩

unseal collapseWs tokenize in
/-- Witness for C5 at a concrete text. -/
theorem split_sentences_length_invariant_witness :
    "The cat sat on the mat.".data ∈
        split_sentences "The cat sat on the mat. It was 5 years old.".data
    ∧ trim "The cat sat on the mat.".data = "The cat sat on the mat.".data
    ∧ 3 ≤ (trim "The cat sat on the mat.".data).length :=
  ⟨by decide,
    (split_sentences_length_invariant
      "The cat sat on the mat. It was 5 years old.".data
      "The cat sat on the mat.".data (by decide)).1,
    (split_sentences_length_invariant
      "The cat sat on the mat. It was 5 years old.".data
      "The cat sat on the mat.".data (by decide)).2⟩

/-- C4: quotas of the orchestrator — the true/false list has exactly
`min numTrueFalse (number of sentences)` items, and neither list ever exceeds
its quota. -/
theorem generate_quiz_quotas (text : List Char) (numTF numBlank : Nat)
    (oracle : Nat → Bool × Nat × Nat) :
    (generate_quiz text numTF numBlank oracle).tf.length
        = min numTF (split_sentences text).length
    ∧ (generate_quiz text numTF numBlank oracle).tf.length ≤ numTF
    ∧ (generate_quiz text numTF numBlank oracle).blank.length ≤ numBlank := by
  have h := quizLoop_spec (score_tokens text (split_sentences text)) numTF numBlank
    oracle (split_sentences text) 0 [] [] (by simp) (by simp)
  rw [generate_quiz]
  refine ⟨?_, ?_, ?_⟩
  · rw [h.1]
    simp
  · rw [h.1]
    omega
  · rw [h.2]
    omega

/-- C3: `make_fill_in_blank` returns none exactly when the sentence has no
tokens, and the orchestrator skips none results without consuming the
fill-blank quota: the blank list has exactly
`min numBlank (number of sentences with at least one token)` items. -/
theorem fill_blank_soft_failure (sent : List Char) (scored : List (List Char × ℚ))
    (text : List Char) (numTF numBlank : Nat) (oracle : Nat → Bool × Nat × Nat) :
    (make_fill_in_blank sent scored = none ↔ tokenize sent = [])
    ∧ (generate_quiz text numTF numBlank oracle).blank.length
        = min numBlank
            ((split_sentences text).countP (fun x => !(tokenize x).isEmpty)) := by
  refine ⟨make_fill_in_blank_none_iff sent scored, ?_⟩
  have h := quizLoop_spec (score_tokens text (split_sentences text)) numTF numBlank
    oracle (split_sentences text) 0 [] [] (by simp) (by simp)
  rw [generate_quiz, h.2]
  simp

/-- C2: whenever `make_true_false` returns answer false, the explanation
contains both the original digit run and the replacement digit run, and the
replacement numeric value exceeds the original by an integer between 1 and 10
inclusive. -/
theorem true_false_consistency (sent : List Char) (scored : List (List Char × ℚ))
    (coin : Bool) (pick d : Nat)
    (h : (make_true_false sent scored coin pick d).answer = false) :
    ∃ n δ, n ∈ digitRuns sent ∧ 1 ≤ δ ∧ δ ≤ 10
      ∧ hasSub n (make_true_false sent scored coin pick d).explanation = true
      ∧ hasSub (natToStr (strToNat n + δ))
          (make_true_false sent scored coin pick d).explanation = true
      ∧ strToNat (natToStr (strToNat n + δ)) = strToNat n + δ := by
  by_cases hc : digitRuns sent ≠ [] ∧ coin = true
  · refine ⟨(digitRuns sent).getD (pick % (digitRuns sent).length) [], 1 + d % 10,
      getD_mod_mem _ _ _ hc.1, by omega, by omega, ?_, ?_, strToNat_natToStr _⟩
    · apply (hasSub_iff _ _).mpr
      refine ⟨("원문: ".data ++ aposC :: (sent ++ [aposC])) ++ " -> 숫자 변경 ".data,
        arrowC :: natToStr (strToNat ((digitRuns sent).getD
          (pick % (digitRuns sent).length) []) + (1 + d % 10)), ?_⟩
      simp only [make_true_false, if_pos hc]
    · apply (hasSub_iff _ _).mpr
      refine ⟨("원문: ".data ++ aposC :: (sent ++ [aposC])) ++ " -> 숫자 변경 ".data
        ++ ((digitRuns sent).getD (pick % (digitRuns sent).length) []) ++ [arrowC],
        [], ?_⟩
      simp only [make_true_false, if_pos hc]
      simp
  · exfalso
    simp only [make_true_false, if_neg hc] at h
    simp at h

unseal digitRuns in
/-- Witness for C2 at a concrete sentence and concrete random outcomes. -/
theorem true_false_consistency_witness :
    (make_true_false "It was 5 years old.".data [] true 0 0).answer = false
    ∧ ∃ n δ, n ∈ digitRuns "It was 5 years old.".data ∧ 1 ≤ δ ∧ δ ≤ 10
      ∧ hasSub n
          (make_true_false "It was 5 years old.".data [] true 0 0).explanation = true
      ∧ hasSub (natToStr (strToNat n + δ))
          (make_true_false "It was 5 years old.".data [] true 0 0).explanation = true
      ∧ strToNat (natToStr (strToNat n + δ)) = strToNat n + δ :=
  ⟨by decide, true_false_consistency "It was 5 years old.".data [] true 0 0 (by decide)⟩

theorem make_fill_in_blank_some (sent : List Char) (scored : List (List Char × ℚ))
    (q a : List Char) (h : make_fill_in_blank sent scored = some (q, a)) :
    hasSub a sent = true ∧ q = replaceFirst sent a blankMarker := by
  rw [make_fill_in_blank] at h
  set cands0 := (tokenize sent).filter
    (fun t => decide (2 ≤ t.length) && !(STOPWORDS.contains t)) with hc0
  rcases hf : (if cands0 = [] ∧ tokenize sent ≠ [] then [maxByLen (tokenize sent)]
      else cands0).find? (fun t => hasSub t sent) with _ | target
  · rw [hf] at h
    simp at h
  · rw [hf] at h
    simp only [Option.some.injEq, Prod.mk.injEq] at h
    have hp := List.find?_some hf
    rcases h with ⟨hq, ha⟩
    subst ha
    exact ⟨hp, hq.symm⟩

/-- C1 (amended): for a sentence that does not contain the underscore
character, whenever `make_fill_in_blank` returns a pair, the question contains
exactly one blank marker and substituting the answer for the first blank
marker reproduces the original sentence. -/
theorem fill_blank_round_trip (sent : List Char) (scored : List (List Char × ℚ))
    (q a : List Char) (hs : ('_' : Char) ∉ sent)
    (h : make_fill_in_blank sent scored = some (q, a)) :
    countOccur blankMarker q = 1 ∧ replaceFirst q blankMarker a = sent := by
  obtain ⟨hsub, hq⟩ := make_fill_in_blank_some sent scored q a h
  rcases replaceFirst_decomp a blankMarker sent hsub with ⟨pre, post, hsent, hrep⟩
  have hq2 : q = pre ++ blankMarker ++ post := by rw [hq, hrep]
  have hpre : ('_' : Char) ∉ pre := fun hx => hs (by rw [hsent]; simp [hx])
  have hpost : ('_' : Char) ∉ post := fun hx => hs (by rw [hsent]; simp [hx])
  constructor
  · rw [hq2]
    have hcount := countOccur_blank pre post hpre hpost
    simpa using hcount
  · rw [hq2, hsent]
    have hrb := replaceFirst_blank pre post a hpre
    simpa using hrb

unseal tokenize in
/-- C1 (counterexample): on a sentence that already contains the blank marker,
the returned question has two markers and substituting the answer into the
first marker does not reproduce the sentence. -/
theorem fill_blank_round_trip_cex :
    make_fill_in_blank "____ ab".data [] = some ("____ ____".data, "ab".data)
    ∧ countOccur blankMarker "____ ____".data = 2
    ∧ replaceFirst "____ ____".data blankMarker "ab".data ≠ "____ ab".data := by
  refine ⟨by decide, by decide, by decide⟩

unseal tokenize in
/-- Witness for the amended C1 theorem at a concrete underscore-free sentence. -/
theorem fill_blank_round_trip_witness :
    ('_' : Char) ∉ "The cat sat.".data
    ∧ make_fill_in_blank "The cat sat.".data []
        = some ("____ cat sat.".data, "The".data)
    ∧ countOccur blankMarker "____ cat sat.".data = 1
    ∧ replaceFirst "____ cat sat.".data blankMarker "The".data
        = "The cat sat.".data :=
  ⟨by decide, by decide,
    (fill_blank_round_trip "The cat sat.".data [] "____ cat sat.".data "The".data
      (by decide) (by decide)).1,
    (fill_blank_round_trip "The cat sat.".data [] "____ cat sat.".data "The".data
      (by decide) (by decide)).2⟩

/-- C6: `score_tokens` keeps exactly the distinct tokens of all sentences
whose lowercase form is not a stop-word, assigns each the score
`frequency + length/4`, and returns the pairs sorted in descending order of
score. -/
theorem score_tokens_spec (text : List Char) (sents : List (List Char)) :
    (∀ t, t ∈ keptTokens sents ↔ (t ∈ allTokens sents ∧ lowerS t ∉ STOPWORDS))
    ∧ (∀ p ∈ score_tokens text sents,
        p.1 ∈ keptTokens sents ∧ p.2 = termScore (keptTokens sents) p.1)
    ∧ (∀ t ∈ keptTokens sents,
        (t, termScore (keptTokens sents) t) ∈ score_tokens text sents)
    ∧ (score_tokens text sents).Pairwise (fun a b => b.2 ≤ a.2)
    ∧ ((score_tokens text sents).map Prod.fst).Nodup := by
  refine ⟨?_, ?_, ?_, ?_, ?_⟩
  · intro t
    rw [keptTokens, List.mem_filter]
    simp [List.contains]
  · intro p hp
    rw [score_tokens, List.mem_insertionSort] at hp
    rcases List.mem_map.mp hp with ⟨t, ht, rfl⟩
    exact ⟨(firstDedup_mem _ t).mp ht, rfl⟩
  · intro t ht
    rw [score_tokens, List.mem_insertionSort]
    exact List.mem_map.mpr ⟨t, (firstDedup_mem _ t).mpr ht, rfl⟩
  · have hs := List.sorted_insertionSort scoreGE
      ((firstDedup (keptTokens sents)).map
        (fun t => (t, termScore (keptTokens sents) t)))
    exact hs
  · have hperm := (List.perm_insertionSort scoreGE
      ((firstDedup (keptTokens sents)).map
        (fun t => (t, termScore (keptTokens sents) t)))).map Prod.fst
    have h2 : (((firstDedup (keptTokens sents)).map
        (fun t => (t, termScore (keptTokens sents) t))).map Prod.fst)
        = firstDedup (keptTokens sents) := by
      rw [List.map_map]
      rw [show (Prod.fst ∘ fun t : List Char => (t, termScore (keptTokens sents) t))
          = fun t => t from rfl]
      exact List.map_id' _
    rw [score_tokens]
    refine hperm.nodup_iff.mpr ?_
    rw [h2]
    exact firstDedup_nodup (keptTokens sents)

unseal tokenize in
/-- Witness for C6 at a concrete sentence list, instantiating the
membership-to-ranking direction at the kept token `cat`. -/
theorem score_tokens_spec_witness :
    "cat".data ∈ keptTokens ["a cat".data]
    ∧ ("cat".data, termScore (keptTokens ["a cat".data]) "cat".data)
        ∈ score_tokens [] ["a cat".data] :=
  ⟨by decide, (score_tokens_spec [] ["a cat".data]).2.2.1 "cat".data (by decide)⟩
